import Mathlib

/-!
Verification of the piece/block accounting, peer-session flow control and
piece-to-file mapping of a small BitTorrent client. The Python sources
(`piece_manager.py`, `peer.py`, `file_manager.py`, `torrent.py`) are shallowly
embedded: byte strings become `List Nat`, dictionaries become association
lists, sets become duplicate-free lists carrying their iteration order, and
the SHA1 digest is an abstract function parameter `h : Bytes → Bytes`.
-/

namespace BT

/-- Bytes are modelled as lists of naturals (`bytes` objects in the source). -/
abbrev Bytes := List Nat

/-- `BLOCK_SIZE = 16384`, piece_manager.py. -/
def BLOCK_SIZE : Nat := 16384

/-- `class Block` (piece_manager.py): a sub-region of a piece.
`data = None` becomes `none`. -/
structure Block where
  piece_index : Nat
  offset : Nat
  length : Nat
  data : Option Bytes
  requested : Bool
  received : Bool
deriving Repr, DecidableEq

/-- `class Piece` (piece_manager.py): index, length, expected digest, block
list, `completed`/`verified` flags and the piece buffer. -/
structure Piece where
  index : Nat
  length : Nat
  hash_value : Bytes
  blocks : List Block
  completed : Bool
  verified : Bool
  data : Bytes
deriving Repr, DecidableEq

/-- The loop body of `Piece._create_blocks`: starting at `offset`, emit blocks
of length `min BLOCK_SIZE (length - offset)` while `offset < length`.
`fuel` bounds the number of iterations; since each iteration advances
`offset` by at least one, `fuel = length` (as used in `createBlocks`) makes
the bound never bind, so this is exactly the source's `while` loop. -/
def createBlocksAux (idx length : Nat) : Nat → Nat → List Block
  | 0, _ => []
  | fuel + 1, offset =>
    if offset < length then
      let block_length := min BLOCK_SIZE (length - offset)
      ({ piece_index := idx
         offset := offset
         length := block_length
         data := none
         requested := false
         received := false } : Block)
        :: createBlocksAux idx length fuel (offset + block_length)
    else []

/-- `Piece._create_blocks` (piece_manager.py). -/
def createBlocks (idx length : Nat) : List Block :=
  createBlocksAux idx length length 0

/-- `Piece.__init__` (piece_manager.py): fresh piece, zeroed buffer,
blocks generated by `_create_blocks`. -/
def Piece.init (idx length : Nat) (hv : Bytes) : Piece :=
  { index := idx
    length := length
    hash_value := hv
    blocks := createBlocks idx length
    completed := false
    verified := false
    data := List.replicate length 0 }

/-- `self.data[offset:offset + len(data)] = data` on a `bytearray`:
replace the slice `[offset, offset + d.length)` of `buf` by `d`. -/
def splice (buf : Bytes) (offset : Nat) (d : Bytes) : Bytes :=
  buf.take offset ++ d ++ buf.drop (offset + d.length)

/-- The `for block in self.blocks` loop of `Piece.add_block_data`: find the
first block with matching offset and length that is not yet received, mark it
received and store its data; `none` when the loop falls through (no such
block, in particular when every matching block was already received). -/
def addBlockLoop : List Block → Nat → Bytes → Option (List Block)
  | [], _, _ => none
  | b :: bs, off, d =>
    if b.offset = off ∧ b.length = d.length ∧ b.received = false then
      some ({ b with data := some d, received := true } :: bs)
    else
      (addBlockLoop bs off d).map (b :: ·)

/-- `Piece.is_complete` (piece_manager.py): all blocks received. -/
def Piece.is_complete (p : Piece) : Bool :=
  p.blocks.all (·.received)

/-- `Piece.verify` (piece_manager.py), with the SHA1 digest abstracted as
`h`: `False` unless `completed`, else compare digest of the buffer with the
expected digest. -/
def Piece.verify (h : Bytes → Bytes) (p : Piece) : Bool :=
  if p.completed = false then false else decide (h p.data = p.hash_value)

/-- `Piece.add_block_data` (piece_manager.py): bounds check, find the block,
copy the data into the buffer, and on completion set `completed` and compute
`verified`. Returns the source's boolean together with the updated piece. -/
def Piece.add_block_data (h : Bytes → Bytes) (p : Piece) (offset : Nat)
    (d : Bytes) : Bool × Piece :=
  if p.length < offset + d.length then (false, p)
  else
    match addBlockLoop p.blocks offset d with
    | none => (false, p)
    | some blocks' =>
      let p1 : Piece := { p with blocks := blocks', data := splice p.data offset d }
      if p1.is_complete then
        let p2 : Piece := { p1 with completed := true }
        (true, { p2 with verified := p2.verify h })
      else (true, p1)

/-- `Piece.get_missing_blocks` (piece_manager.py): blocks neither received
nor requested, in block-list order. -/
def Piece.get_missing_blocks (p : Piece) : List Block :=
  p.blocks.filter (fun b => !b.received && !b.requested)

/-- `block.requested = True` performed on `missing_blocks[0]`
(`PieceManager.get_next_request`): mark the first block that is neither
received nor requested. -/
def markFirstMissing : List Block → List Block
  | [] => []
  | b :: bs =>
    if !b.received && !b.requested then { b with requested := true } :: bs
    else b :: markFirstMissing bs

/-- `PieceManager` state (piece_manager.py): the `pieces` dict as an
association list and the `completed_pieces` set as a duplicate-free list.
The completion callback is modelled by the event list returned by
`add_piece_data`. -/
structure PieceManager where
  pieces : List (Nat × Piece)
  completed_pieces : List Nat
deriving Repr, DecidableEq

/-- Dict write `self.pieces[i] = p` for a key already present: rewrite the
entry with key `i`. -/
def updatePiece (m : PieceManager) (i : Nat) (p : Piece) : PieceManager :=
  { m with pieces := m.pieces.map (fun e => if e.1 = i then (i, p) else e) }

/-- `set.add` on the completed-pieces set. -/
def setAdd (s : List Nat) (i : Nat) : List Nat :=
  if i ∈ s then s else s ++ [i]

/-- The failed-verification reset in `PieceManager.add_piece_data`:
`completed = False`, `verified = False`, a fresh zero buffer, and all blocks
cleared (`data = None`, `received = False`, `requested = False`). -/
def resetPiece (p : Piece) : Piece :=
  { p with
    completed := false
    verified := false
    data := List.replicate p.length 0
    blocks := p.blocks.map
      (fun b => { b with data := none, received := false, requested := false }) }

/-- `PieceManager.add_piece_data` (piece_manager.py). Returns the source's
boolean, the new state, and the list of `on_piece_completed(i, bytes)`
callback invocations made by the call. -/
def add_piece_data (h : Bytes → Bytes) (m : PieceManager) (i offset : Nat)
    (d : Bytes) : Bool × PieceManager × List (Nat × Bytes) :=
  match List.lookup i m.pieces with
  | none => (false, m, [])
  | some piece =>
    if piece.completed then (true, m, [])
    else
      let r := piece.add_block_data h offset d
      if r.1 && r.2.completed then
        if r.2.verified then
          let m' := updatePiece m i r.2
          (r.1, { m' with completed_pieces := setAdd m.completed_pieces i },
           [(i, r.2.data)])
        else
          (r.1, updatePiece m i (resetPiece r.2), [])
      else (r.1, updatePiece m i r.2, [])

/-- The sort key `len(self.pieces[p].get_missing_blocks())` of
`PieceManager.get_next_request`. -/
def missKey (m : PieceManager) (i : Nat) : Nat :=
  match List.lookup i m.pieces with
  | some p => p.get_missing_blocks.length
  | none => 0

/-- The `for piece_index in needed_pieces` loop of
`PieceManager.get_next_request`: first piece with a missing block yields that
block, which is marked `requested`. -/
def gnrLoop (m : PieceManager) : List Nat → Option (Nat × Nat × Nat) × PieceManager
  | [] => (none, m)
  | i :: rest =>
    match List.lookup i m.pieces with
    | none => (none, m)
    | some p =>
      match p.get_missing_blocks with
      | [] => gnrLoop m rest
      | b :: _ =>
        (some (i, b.offset, b.length),
         updatePiece m i { p with blocks := markFirstMissing p.blocks })

/-- `PieceManager.get_next_request` (piece_manager.py). `available` is the
iteration order of the Python set `available_pieces`; the stable
`List.insertionSort` models Python's stable `list.sort(key=...)`. -/
def get_next_request (m : PieceManager) (available : List Nat) :
    Option (Nat × Nat × Nat) × PieceManager :=
  let needed := available.filter
    (fun i => (List.lookup i m.pieces).isSome && !(m.completed_pieces.contains i))
  if needed.isEmpty then (none, m)
  else gnrLoop m (needed.insertionSort (fun a b => missKey m a ≤ missKey m b))

/-- Ingesting, for piece `i`, a sequence of `(offset, length)` block slots in
order, each carrying the matching slice of the intended piece content `P`
(`P[offset : offset + length]`). Returns the final state and the
concatenated completion-callback events. -/
def ingestAll (h : Bytes → Bytes) (P : Bytes) (m : PieceManager) (i : Nat) :
    List (Nat × Nat) → PieceManager × List (Nat × Bytes)
  | [] => (m, [])
  | (o, l) :: rest =>
    let r := add_piece_data h m i o ((P.drop o).take l)
    let rest' := ingestAll h P r.2.1 i rest
    (rest'.1, r.2.2 ++ rest'.2)

/-- The `(offset, length)` slots of the blocks of a fresh piece of the given
length. -/
def basePairs (idx length : Nat) : List (Nat × Nat) :=
  (createBlocks idx length).map (fun b => (b.offset, b.length))

/-! ## Peer session (peer.py) -/

/-- `PeerConnection` state (peer.py): the flags, the availability bit array
(`BitArray` as `List Bool`), and the `pending_requests` dict
`piece_index -> set of (begin, length)` as an association list whose value
sets are duplicate-free lists. -/
structure PeerConnection where
  connected : Bool
  handshake_completed : Bool
  am_choking : Bool
  am_interested : Bool
  peer_choking : Bool
  peer_interested : Bool
  peer_pieces : List Bool
  pending_requests : List (Nat × List (Nat × Nat))
  max_requests : Nat
deriving Repr, DecidableEq

/-- `PeerConnection.__init__` (peer.py): not connected, handshake not done,
both sides choking and not interested, empty bit array, no pending
requests, `max_requests = 5`. -/
def PeerConnection.init : PeerConnection :=
  { connected := false
    handshake_completed := false
    am_choking := true
    am_interested := false
    peer_choking := true
    peer_interested := false
    peer_pieces := []
    pending_requests := []
    max_requests := 5 }

/-- `sum(len(requests) for requests in self.pending_requests.values())`. -/
def totalPending (s : PeerConnection) : Nat :=
  (s.pending_requests.map (fun e => e.2.length)).sum

/-- `PeerConnection.has_piece` (peer.py). -/
def PeerConnection.has_piece (s : PeerConnection) (piece_index : Nat) : Bool :=
  decide (piece_index < s.peer_pieces.length) && s.peer_pieces.getD piece_index false

/-- `PeerConnection.can_request` (peer.py). -/
def PeerConnection.can_request (s : PeerConnection) : Bool :=
  s.connected && s.handshake_completed && !s.peer_choking && s.am_interested

/-- `self.pending_requests[piece_index].add((begin, length))`, creating the
set when the key is absent (lines 268-270 of peer.py). -/
def pendingAdd (pr : List (Nat × List (Nat × Nat))) (i : Nat) (k : Nat × Nat) :
    List (Nat × List (Nat × Nat)) :=
  match List.lookup i pr with
  | none => pr ++ [(i, [k])]
  | some ks =>
    pr.map (fun e => if e.1 = i then (i, if k ∈ ks then ks else ks ++ [k]) else e)

/-- `PeerConnection.request_piece` (peer.py): refuse when not connected or
choked, when the pending total reached `max_requests`, or when the peer does
not have the piece; otherwise send the request and track it. The boolean in
the result is both the return value and "a request message was emitted". -/
def PeerConnection.request_piece (s : PeerConnection)
    (piece_index begin_ length : Nat) : Bool × PeerConnection :=
  if !s.connected || s.peer_choking then (false, s)
  else if s.max_requests ≤ totalPending s then (false, s)
  else if s.peer_pieces.length ≤ piece_index || !s.peer_pieces.getD piece_index false then
    (false, s)
  else
    (true, { s with pending_requests := pendingAdd s.pending_requests piece_index (begin_, length) })

/-- The pending-request bookkeeping of `PeerConnection._handle_piece`
(peer.py): `discard (begin, len(data))` from the piece's set, deleting the
dict entry when the set becomes empty. -/
def pendingDiscard (pr : List (Nat × List (Nat × Nat))) (i : Nat) (k : Nat × Nat) :
    List (Nat × List (Nat × Nat)) :=
  match List.lookup i pr with
  | none => pr
  | some ks =>
    if (ks.filter (fun x => x ≠ k)).isEmpty then pr.filter (fun e => e.1 ≠ i)
    else pr.map (fun e => if e.1 = i then (i, ks.filter (fun x => x ≠ k)) else e)

/-- `PeerConnection._handle_piece` (peer.py), restricted to its effect on the
session state (the data is forwarded to the piece-store callback). -/
def PeerConnection.handle_piece (s : PeerConnection) (piece_index begin_ : Nat)
    (d : Bytes) : PeerConnection :=
  { s with pending_requests := pendingDiscard s.pending_requests piece_index (begin_, d.length) }

/-- One transition of a peer session, as interleavings of `request_piece`
calls (accepted or refused) and inbound `piece` messages. -/
inductive PeerStep : PeerConnection → PeerConnection → Prop
  | req (s : PeerConnection) (i b l : Nat) :
      PeerStep s (s.request_piece i b l).2
  | piece (s : PeerConnection) (i b : Nat) (d : Bytes) :
      PeerStep s (s.handle_piece i b d)

/-- States of a peer session reachable from the freshly constructed one. -/
def PeerReachable (s : PeerConnection) : Prop :=
  Relation.ReflTransGen PeerStep PeerConnection.init s

/-! ## Torrent descriptor and file writer (torrent.py, file_manager.py) -/

/-- One entry of `TorrentFile.files`: declared length and linear offset into
the concatenated stream (the path components are irrelevant to the byte
accounting). -/
structure FileEntry where
  length : Nat
  offset : Nat
deriving Repr, DecidableEq

/-- The fields of `TorrentFile` used by the piece-to-file mapping. -/
structure TorrentInfo where
  files : List FileEntry
  total_length : Nat
  piece_length : Nat
  num_pieces : Nat
deriving Repr, DecidableEq

/-- `TorrentFile.get_piece_length` (torrent.py): the last piece is
`total_length - piece_index * piece_length`, all others `piece_length`. -/
def get_piece_length (t : TorrentInfo) (piece_index : Nat) : Nat :=
  if piece_index = t.num_pieces - 1 then
    t.total_length - piece_index * t.piece_length
  else t.piece_length

/-- `TorrentFile.get_files_for_piece` (torrent.py). -/
def get_files_for_piece (t : TorrentInfo) (piece_index : Nat) : List FileEntry :=
  let piece_start := piece_index * t.piece_length
  let piece_end := piece_start + get_piece_length t piece_index
  t.files.filter (fun f =>
    decide (piece_start < f.offset + f.length) && decide (f.offset < piece_end))

/-- `FileManager.write_piece` (file_manager.py), as the list of writes it
performs: for each overlapping file, the target file entry, the in-file
write position `overlap_start - file_start`, and the written bytes
`piece_data[piece_read_pos : piece_read_pos + overlap_length]`. -/
def write_piece (t : TorrentInfo) (piece_index : Nat) (piece_data : Bytes) :
    List (FileEntry × Nat × Bytes) :=
  let piece_offset := piece_index * t.piece_length
  (get_files_for_piece t piece_index).filterMap (fun f =>
    let overlap_start := max piece_offset f.offset
    let overlap_end := min (piece_offset + piece_data.length) (f.offset + f.length)
    if overlap_start < overlap_end then
      some (f, overlap_start - f.offset,
        ((piece_data.drop (overlap_start - piece_offset)).take (overlap_end - overlap_start)))
    else none)

/-- The file map is contiguous starting at `s`: each entry's offset is the
running total of the previous lengths. -/
def contiguousFrom : Nat → List FileEntry → Prop
  | _, [] => True
  | s, f :: fs => f.offset = s ∧ contiguousFrom (s + f.length) fs

/-! ## Theorems -/

/-- The clamped overlap length of `[a, b)` with each file's byte range,
summed over a file list (`Nat` subtraction truncates at 0). -/
def sumOverlap (a b : Nat) (fs : List FileEntry) : Nat :=
  (fs.map (fun f => min b (f.offset + f.length) - max a f.offset)).sum

lemma sumOverlap_contig (a b : Nat) :
    ∀ (fs : List FileEntry) (s : Nat), contiguousFrom s fs →
      sumOverlap a b fs = min b (s + (fs.map (·.length)).sum) - max a s := by
  intro fs
  induction fs with
  | nil =>
    intro s _
    simp only [sumOverlap, List.map_nil, List.sum_nil]
    omega
  | cons f fs ih =>
    intro s hcont
    obtain ⟨hoff, hrest⟩ := hcont
    simp only [sumOverlap, List.map_cons, List.sum_cons] at ih ⊢
    rw [ih (s + f.length) hrest, hoff]
    omega

lemma write_piece_sum (t : TorrentInfo) (i : Nat) (P : Bytes)
    (hlen : P.length = get_piece_length t i) :
    ((write_piece t i P).map (fun w => w.2.2.length)).sum =
      sumOverlap (i * t.piece_length) (i * t.piece_length + P.length) t.files := by
  simp only [write_piece, get_files_for_piece, ← hlen]
  generalize t.files = fs
  induction fs with
  | nil => simp [sumOverlap]
  | cons f fs ih =>
    by_cases hsel : (decide (i * t.piece_length < f.offset + f.length) &&
        decide (f.offset < i * t.piece_length + P.length)) = true
    · rw [List.filter_cons, if_pos hsel]
      by_cases hov : max (i * t.piece_length) f.offset <
          min (i * t.piece_length + P.length) (f.offset + f.length)
      · rw [List.filterMap_cons_some (by rw [if_pos hov])]
        simp only [List.map_cons, List.sum_cons, sumOverlap, List.map_cons, List.sum_cons] at ih ⊢
        rw [ih]
        have hlen2 : ((P.drop (max (i * t.piece_length) f.offset - i * t.piece_length)).take
            (min (i * t.piece_length + P.length) (f.offset + f.length) -
              max (i * t.piece_length) f.offset)).length =
            min (i * t.piece_length + P.length) (f.offset + f.length) -
              max (i * t.piece_length) f.offset := by
          rw [List.length_take, List.length_drop]
          omega
        rw [hlen2]
      · rw [List.filterMap_cons_none (by rw [if_neg hov])]
        simp only [sumOverlap, List.map_cons, List.sum_cons] at ih ⊢
        rw [ih]
        omega
    · rw [List.filter_cons, if_neg hsel]
      simp only [Bool.and_eq_true, decide_eq_true_eq, not_and] at hsel
      simp only [sumOverlap, List.map_cons, List.sum_cons] at ih ⊢
      rw [ih]
      omega

/-- C2: under a contiguous file map covering the total length and a piece
payload of the piece's length lying inside the stream, `write_piece`
performs, for each file whose range intersects the piece range,
exactly the claimed slice at the claimed in-file offset; the written byte
counts sum to `len(P)`, every write stays inside its file, and files that do
not intersect the piece range receive no write. -/
theorem write_piece_bytes (t : TorrentInfo) (i : Nat) (P : Bytes)
    (hcont : contiguousFrom 0 t.files)
    (hsum : (t.files.map (·.length)).sum = t.total_length)
    (hlen : P.length = get_piece_length t i)
    (hfit : i * t.piece_length + P.length ≤ t.total_length) :
    ((write_piece t i P).map (fun w => w.2.2.length)).sum = P.length ∧
    (∀ w ∈ write_piece t i P,
       w.1 ∈ t.files ∧
       i * t.piece_length < w.1.offset + w.1.length ∧
       w.1.offset < i * t.piece_length + P.length ∧
       w.2.1 = max (i * t.piece_length) w.1.offset - w.1.offset ∧
       w.2.2 = (P.drop (max (i * t.piece_length) w.1.offset - i * t.piece_length)).take
         (min (i * t.piece_length + P.length) (w.1.offset + w.1.length) -
           max (i * t.piece_length) w.1.offset) ∧
       w.2.1 + w.2.2.length ≤ w.1.length) ∧
    (∀ f ∈ t.files,
       ¬(i * t.piece_length < f.offset + f.length ∧
         f.offset < i * t.piece_length + P.length) →
       ∀ w ∈ write_piece t i P, w.1 ≠ f) := by
  have hper : ∀ w ∈ write_piece t i P,
      w.1 ∈ t.files ∧
      i * t.piece_length < w.1.offset + w.1.length ∧
      w.1.offset < i * t.piece_length + P.length ∧
      w.2.1 = max (i * t.piece_length) w.1.offset - w.1.offset ∧
      w.2.2 = (P.drop (max (i * t.piece_length) w.1.offset - i * t.piece_length)).take
        (min (i * t.piece_length + P.length) (w.1.offset + w.1.length) -
          max (i * t.piece_length) w.1.offset) ∧
      w.2.1 + w.2.2.length ≤ w.1.length := by
    intro w hw
    simp only [write_piece, List.mem_filterMap] at hw
    obtain ⟨f, hf, hfw⟩ := hw
    simp only [get_files_for_piece, List.mem_filter, Bool.and_eq_true,
      decide_eq_true_eq, ← hlen] at hf
    split at hfw
    · rename_i hov
      injection hfw with hfw
      subst hfw
      refine ⟨hf.1, hf.2.1, hf.2.2, rfl, rfl, ?_⟩
      simp only [List.length_take, List.length_drop]
      omega
    · exact absurd hfw (by simp)
  refine ⟨?_, hper, ?_⟩
  · rw [write_piece_sum t i P hlen, sumOverlap_contig _ _ t.files 0 hcont, hsum]
    omega
  · intro f hf hno w hw hwf
    obtain ⟨_, h1, h2, _⟩ := hper w hw
    rw [hwf] at h1 h2
    exact hno ⟨h1, h2⟩

/-- A three-piece, two-file descriptor used as concrete input: lengths 6 and
4, total 10, piece length 4 (pieces of lengths 4, 4, 2). -/
def c2Torrent : TorrentInfo :=
  { files := [{ length := 6, offset := 0 }, { length := 4, offset := 6 }]
    total_length := 10
    piece_length := 4
    num_pieces := 3 }

theorem write_piece_bytes_witness :
    contiguousFrom 0 c2Torrent.files ∧
    (c2Torrent.files.map (·.length)).sum = c2Torrent.total_length ∧
    ([1, 2, 3, 4] : Bytes).length = get_piece_length c2Torrent 1 ∧
    1 * c2Torrent.piece_length + ([1, 2, 3, 4] : Bytes).length ≤ c2Torrent.total_length ∧
    (((write_piece c2Torrent 1 [1, 2, 3, 4]).map (fun w => w.2.2.length)).sum =
        ([1, 2, 3, 4] : Bytes).length ∧
      (∀ w ∈ write_piece c2Torrent 1 [1, 2, 3, 4],
        w.1 ∈ c2Torrent.files ∧
        1 * c2Torrent.piece_length < w.1.offset + w.1.length ∧
        w.1.offset < 1 * c2Torrent.piece_length + ([1, 2, 3, 4] : Bytes).length ∧
        w.2.1 = max (1 * c2Torrent.piece_length) w.1.offset - w.1.offset ∧
        w.2.2 = (([1, 2, 3, 4] : Bytes).drop
            (max (1 * c2Torrent.piece_length) w.1.offset - 1 * c2Torrent.piece_length)).take
          (min (1 * c2Torrent.piece_length + ([1, 2, 3, 4] : Bytes).length)
              (w.1.offset + w.1.length) - max (1 * c2Torrent.piece_length) w.1.offset) ∧
        w.2.1 + w.2.2.length ≤ w.1.length) ∧
      (∀ f ∈ c2Torrent.files,
        ¬(1 * c2Torrent.piece_length < f.offset + f.length ∧
          f.offset < 1 * c2Torrent.piece_length + ([1, 2, 3, 4] : Bytes).length) →
        ∀ w ∈ write_piece c2Torrent 1 [1, 2, 3, 4], w.1 ≠ f)) :=
  ⟨by simp [contiguousFrom, c2Torrent], by decide, by decide, by decide,
    write_piece_bytes c2Torrent 1 [1, 2, 3, 4]
      (by simp [contiguousFrom, c2Torrent]) (by decide) (by decide) (by decide)⟩

lemma createBlocksAux_mem (idx L : Nat) :
    ∀ (fuel o : Nat), L - o ≤ fuel →
      ∀ b ∈ createBlocksAux idx L fuel o,
        o ≤ b.offset ∧ b.offset + b.length ≤ L ∧ 0 < b.length ∧
        b.received = false ∧ b.requested = false ∧ b.data = none := by
  have hB : 0 < BLOCK_SIZE := by decide
  intro fuel
  induction fuel with
  | zero =>
    intro o hfo b hb
    simp [createBlocksAux] at hb
  | succ fuel ih =>
    intro o hfo b hb
    unfold createBlocksAux at hb
    split at hb
    · rename_i hoL
      rcases List.mem_cons.mp hb with hb | hb
      · subst hb
        refine ⟨le_refl _, ?_, ?_, rfl, rfl, rfl⟩
        · show o + min BLOCK_SIZE (L - o) ≤ L
          omega
        · show 0 < min BLOCK_SIZE (L - o)
          omega
      · have hrec := ih (o + min BLOCK_SIZE (L - o)) (by omega) b hb
        refine ⟨by omega, hrec.2.1, hrec.2.2.1, hrec.2.2.2⟩
    · simp at hb

lemma createBlocksAux_pairwise (idx L : Nat) :
    ∀ (fuel o : Nat), L - o ≤ fuel →
      (createBlocksAux idx L fuel o).Pairwise (fun x y => x.offset < y.offset) := by
  have hB : 0 < BLOCK_SIZE := by decide
  intro fuel
  induction fuel with
  | zero =>
    intro o _
    simp [createBlocksAux]
  | succ fuel ih =>
    intro o hfo
    unfold createBlocksAux
    split
    · rename_i hoL
      refine List.pairwise_cons.mpr ⟨?_, ih (o + min BLOCK_SIZE (L - o)) (by omega)⟩
      intro b hb
      have hrec := createBlocksAux_mem idx L fuel (o + min BLOCK_SIZE (L - o)) (by omega) b hb
      show o < b.offset
      omega
    · exact List.Pairwise.nil

lemma createBlocksAux_cover (idx L : Nat) :
    ∀ (fuel o : Nat), L - o ≤ fuel → ∀ j, o ≤ j → j < L →
      ∃ b ∈ createBlocksAux idx L fuel o, b.offset ≤ j ∧ j < b.offset + b.length := by
  have hB : 0 < BLOCK_SIZE := by decide
  intro fuel
  induction fuel with
  | zero =>
    intro o hfo j hoj hjL
    omega
  | succ fuel ih =>
    intro o hfo j hoj hjL
    unfold createBlocksAux
    rw [if_pos (by omega)]
    by_cases hj : j < o + min BLOCK_SIZE (L - o)
    · exact ⟨_, List.mem_cons_self _ _, hoj, hj⟩
    · obtain ⟨b, hb, hb1, hb2⟩ := ih (o + min BLOCK_SIZE (L - o)) (by omega) j (by omega) hjL
      exact ⟨b, List.mem_cons_of_mem _ hb, hb1, hb2⟩

lemma createBlocks_mem (idx L : Nat) (b : Block) (hb : b ∈ createBlocks idx L) :
    b.offset + b.length ≤ L ∧ 0 < b.length ∧
      b.received = false ∧ b.requested = false ∧ b.data = none :=
  ((createBlocksAux_mem idx L L 0 (by omega) b hb).2)

lemma createBlocks_pairwise (idx L : Nat) :
    (createBlocks idx L).Pairwise (fun x y => x.offset < y.offset) :=
  createBlocksAux_pairwise idx L L 0 (by omega)

lemma createBlocks_cover (idx L : Nat) (j : Nat) (hj : j < L) :
    ∃ b ∈ createBlocks idx L, b.offset ≤ j ∧ j < b.offset + b.length :=
  createBlocksAux_cover idx L L 0 (by omega) j (Nat.zero_le j) hj

lemma createBlocks_ne_nil (idx L : Nat) (hL : 0 < L) : createBlocks idx L ≠ [] := by
  obtain ⟨b, hb, _⟩ := createBlocks_cover idx L 0 hL
  intro hnil
  rw [hnil] at hb
  exact absurd hb (List.not_mem_nil b)

lemma mem_offset_eq (base : List Block)
    (hpair : base.Pairwise (fun x y => x.offset < y.offset)) :
    ∀ b1 ∈ base, ∀ b2 ∈ base, b1.offset = b2.offset → b1 = b2 := by
  induction base with
  | nil => simp
  | cons x t ih =>
    obtain ⟨hx, ht⟩ := List.pairwise_cons.mp hpair
    intro b1 hb1 b2 hb2 heq
    rcases List.mem_cons.mp hb1 with h1 | h1
    · rcases List.mem_cons.mp hb2 with h2 | h2
      · rw [h1, h2]
      · subst h1
        have := hx b2 h2
        omega
    · rcases List.mem_cons.mp hb2 with h2 | h2
      · subst h2
        have := hx b1 h1
        omega
      · exact ih ht b1 h1 b2 h2 heq

lemma splice_length (buf : Bytes) (o : Nat) (d : Bytes)
    (h : o + d.length ≤ buf.length) : (splice buf o d).length = buf.length := by
  simp only [splice, List.length_append, List.length_take, List.length_drop]
  omega

lemma splice_getD (buf : Bytes) (o : Nat) (d : Bytes)
    (h : o + d.length ≤ buf.length) (j : Nat) :
    (splice buf o d).getD j 0 =
      if o ≤ j ∧ j < o + d.length then d.getD (j - o) 0 else buf.getD j 0 := by
  have hto : (buf.take o).length = o := by
    rw [List.length_take]
    omega
  have hlen1 : (buf.take o ++ d).length = o + d.length := by
    rw [List.length_append, hto]
  simp only [splice, List.getD_eq_getElem?_getD]
  by_cases h1 : j < o
  · rw [if_neg (by omega)]
    rw [List.getElem?_append, hlen1, if_pos (by omega),
      List.getElem?_append, hto, if_pos h1, List.getElem?_take_of_lt h1]
  · by_cases h2 : j < o + d.length
    · rw [if_pos ⟨by omega, h2⟩]
      rw [List.getElem?_append, hlen1, if_pos h2,
        List.getElem?_append, hto, if_neg (by omega)]
    · rw [if_neg (by omega)]
      rw [List.getElem?_append, hlen1, if_neg (by omega), List.getElem?_drop]
      have hidx : o + List.length d + (j - (o + List.length d)) = j := by omega
      rw [hidx]

lemma take_drop_getD (P : Bytes) (o l k : Nat) (hk : k < l) :
    ((P.drop o).take l).getD k 0 = P.getD (o + k) 0 := by
  simp only [List.getD_eq_getElem?_getD]
  rw [List.getElem?_take_of_lt hk, List.getElem?_drop]

/-- The slice of the intended piece content `P` that belongs to block `b`. -/
def slotData (P : Bytes) (b : Block) : Bytes := (P.drop b.offset).take b.length

/-- A fresh block, or the block after its slice of `P` has been ingested,
according to whether its offset is in the set `done` of ingested offsets. -/
def overlayBlock (P : Bytes) (done : List Nat) (b : Block) : Block :=
  if b.offset ∈ done then { b with received := true, data := some (slotData P b) } else b

def overlayBlocks (base : List Block) (P : Bytes) (done : List Nat) : List Block :=
  base.map (overlayBlock P done)

/-- Position `j` lies inside some block whose offset has been ingested. -/
def coveredBy (base : List Block) (done : List Nat) (j : Nat) : Prop :=
  ∃ b ∈ base, b.offset ∈ done ∧ b.offset ≤ j ∧ j < b.offset + b.length

instance (base : List Block) (done : List Nat) (j : Nat) :
    Decidable (coveredBy base done j) := by
  unfold coveredBy
  infer_instance

/-- The piece-state invariant during ingestion of the correct block set for
a fresh piece: the blocks are the fresh layout overlaid with the ingested
slots, and the buffer holds `P` on covered positions and `0` elsewhere. -/
def InvP (idx L : Nat) (hv P : Bytes) (done : List Nat) (p : Piece) : Prop :=
  p.index = idx ∧ p.length = L ∧ p.hash_value = hv ∧
  p.completed = false ∧ p.verified = false ∧
  p.blocks = overlayBlocks (createBlocks idx L) P done ∧
  p.data.length = L ∧
  ∀ j, j < L →
    p.data.getD j 0 = (if coveredBy (createBlocks idx L) done j then P.getD j 0 else 0)

lemma overlayBlock_offset (P : Bytes) (done : List Nat) (b : Block) :
    (overlayBlock P done b).offset = b.offset := by
  unfold overlayBlock
  split <;> rfl

lemma overlayBlock_not_mem (P : Bytes) (done : List Nat) (o : Nat) (b : Block)
    (hne : b.offset ≠ o) : overlayBlock P (o :: done) b = overlayBlock P done b := by
  unfold overlayBlock
  by_cases hd : b.offset ∈ done
  · rw [if_pos (List.mem_cons_of_mem o hd), if_pos hd]
  · rw [if_neg (by simp [hne, hd]), if_neg hd]

lemma overlayBlocks_nil_done (base : List Block) (P : Bytes) :
    overlayBlocks base P [] = base := by
  unfold overlayBlocks
  have hid : ∀ b ∈ base, overlayBlock P [] b = b := by
    intro b _
    unfold overlayBlock
    rw [if_neg (List.not_mem_nil _)]
  rw [List.map_congr_left hid]
  exact List.map_id' base

lemma addBlockLoop_overlay (P : Bytes) (base : List Block) (done : List Nat)
    (o l : Nat) (d : Bytes)
    (hpair : base.Pairwise (fun x y => x.offset < y.offset))
    (hinit : ∀ b ∈ base, b.received = false)
    (hmem : ∃ b ∈ base, b.offset = o ∧ b.length = l)
    (hno : o ∉ done)
    (hdl : d.length = l)
    (hdeq : d = (P.drop o).take l) :
    addBlockLoop (overlayBlocks base P done) o d =
      some (overlayBlocks base P (o :: done)) := by
  induction base with
  | nil => simp at hmem
  | cons b rest ih =>
    obtain ⟨hb_rest, hpair_rest⟩ := List.pairwise_cons.mp hpair
    unfold overlayBlocks
    rw [List.map_cons, List.map_cons]
    by_cases hbo : b.offset = o
    · have hbl : b.length = l := by
        obtain ⟨b0, hb0, hb0o, hb0l⟩ := hmem
        rcases List.mem_cons.mp hb0 with h | h
        · rw [← h]
          exact hb0l
        · have := hb_rest b0 h
          omega
      have hbdone : b.offset ∉ done := by
        rw [hbo]
        exact hno
      have hhead : overlayBlock P done b = b := by
        unfold overlayBlock
        rw [if_neg hbdone]
      rw [hhead]
      unfold addBlockLoop
      rw [if_pos ⟨hbo, by rw [hdl, hbl], hinit b (List.mem_cons_self b rest)⟩]
      congr 1
      congr 1
      · unfold overlayBlock
        rw [if_pos (by rw [hbo]; exact List.mem_cons_self o done)]
        unfold slotData
        rw [hbo, hbl, ← hdeq]
      · refine List.map_congr_left ?_
        intro x hx
        refine (overlayBlock_not_mem P done o x ?_).symm
        have := hb_rest x hx
        omega
    · unfold addBlockLoop
      rw [if_neg (fun hC => hbo (by rw [← overlayBlock_offset P done b]; exact hC.1))]
      have hmem' : ∃ b0 ∈ rest, b0.offset = o ∧ b0.length = l := by
        obtain ⟨b0, hb0, hb0o, hb0l⟩ := hmem
        rcases List.mem_cons.mp hb0 with h | h
        · exact absurd (h ▸ hb0o) hbo
        · exact ⟨b0, h, hb0o, hb0l⟩
      have ihr := ih hpair_rest (fun x hx => hinit x (List.mem_cons_of_mem b hx)) hmem'
      unfold overlayBlocks at ihr
      rw [ihr, Option.map_some', overlayBlock_not_mem P done o b hbo]

lemma is_complete_overlay (base : List Block) (P : Bytes) (done : List Nat)
    (hinit : ∀ b ∈ base, b.received = false) :
    ((overlayBlocks base P done).all (·.received) = true) ↔
      ∀ b ∈ base, b.offset ∈ done := by
  simp only [overlayBlocks, List.all_eq_true, List.mem_map]
  constructor
  · intro hall b hb
    by_contra hnd
    have hrec := hall _ ⟨b, hb, rfl⟩
    unfold overlayBlock at hrec
    rw [if_neg hnd] at hrec
    rw [hinit b hb] at hrec
    exact absurd hrec (by decide)
  · rintro hall x ⟨b, hb, rfl⟩
    unfold overlayBlock
    rw [if_pos (hall b hb)]

lemma coveredBy_cons_iff (base : List Block) (done : List Nat) (o l j : Nat)
    (hpair : base.Pairwise (fun x y => x.offset < y.offset))
    (hmem : ∃ b ∈ base, b.offset = o ∧ b.length = l) :
    coveredBy base (o :: done) j ↔ ((o ≤ j ∧ j < o + l) ∨ coveredBy base done j) := by
  obtain ⟨b0, hb0, hb0o, hb0l⟩ := hmem
  constructor
  · rintro ⟨b, hb, hbdone, hb1, hb2⟩
    rcases List.mem_cons.mp hbdone with hh | hh
    · have hbeq : b = b0 := mem_offset_eq base hpair b hb b0 hb0 (by rw [hh, hb0o])
      rw [hbeq] at hb1 hb2
      left
      omega
    · exact Or.inr ⟨b, hb, hh, hb1, hb2⟩
  · rintro (⟨h1, h2⟩ | ⟨b, hb, hbdone, hb1, hb2⟩)
    · exact ⟨b0, hb0, by rw [hb0o]; exact List.mem_cons_self o done, by omega, by omega⟩
    · exact ⟨b, hb, List.mem_cons_of_mem o hbdone, hb1, hb2⟩

lemma coveredBy_all (idx L : Nat) (done : List Nat) (j : Nat) (hj : j < L)
    (hall : ∀ b ∈ createBlocks idx L, b.offset ∈ done) :
    coveredBy (createBlocks idx L) done j := by
  obtain ⟨b, hb, h1, h2⟩ := createBlocks_cover idx L j hj
  exact ⟨b, hb, hall b hb, h1, h2⟩

lemma take_drop_length (P : Bytes) (o l : Nat) (hol : o + l ≤ P.length) :
    ((P.drop o).take l).length = l := by
  rw [List.length_take, List.length_drop]
  omega

lemma bytes_ext (xs ys : Bytes) (hlen : xs.length = ys.length)
    (hpt : ∀ j, j < xs.length → xs.getD j 0 = ys.getD j 0) : xs = ys := by
  refine List.ext_getElem hlen ?_
  intro n h1 h2
  have hn := hpt n h1
  rw [List.getD_eq_getElem xs 0 h1, List.getD_eq_getElem ys 0 h2] at hn
  exact hn

lemma add_block_data_step (h : Bytes → Bytes) (idx L : Nat) (hv P : Bytes)
    (done : List Nat) (p : Piece) (o l : Nat)
    (hP : P.length = L)
    (hinv : InvP idx L hv P done p)
    (hmem : (o, l) ∈ basePairs idx L)
    (hno : o ∉ done) :
    (p.add_block_data h o ((P.drop o).take l)).1 = true ∧
    ((¬ ∀ pr ∈ basePairs idx L, pr.1 ∈ o :: done) →
      InvP idx L hv P (o :: done) (p.add_block_data h o ((P.drop o).take l)).2) ∧
    ((∀ pr ∈ basePairs idx L, pr.1 ∈ o :: done) →
      (p.add_block_data h o ((P.drop o).take l)).2.data = P ∧
      (p.add_block_data h o ((P.drop o).take l)).2.completed = true ∧
      (p.add_block_data h o ((P.drop o).take l)).2.hash_value = hv ∧
      (p.add_block_data h o ((P.drop o).take l)).2.verified = decide (h P = hv)) := by
  obtain ⟨hidx, hLp, hhv, hcomp, hver, hblocks, hbuflen, hbuf⟩ := hinv
  simp only [basePairs, List.mem_map, Prod.mk.injEq] at hmem
  obtain ⟨b0, hb0, hb0o, hb0l⟩ := hmem
  have hpairbase := createBlocks_pairwise idx L
  have hinitbase : ∀ b ∈ createBlocks idx L, b.received = false :=
    fun b hb => (createBlocks_mem idx L b hb).2.2.1
  have hol : o + l ≤ L := by
    have := (createBlocks_mem idx L b0 hb0).1
    omega
  have hdl : ((P.drop o).take l).length = l := take_drop_length P o l (by omega)
  have hguard : ¬ (p.length < o + ((P.drop o).take l).length) := by
    rw [hLp, hdl]
    omega
  have hloop : addBlockLoop p.blocks o ((P.drop o).take l) =
      some (overlayBlocks (createBlocks idx L) P (o :: done)) := by
    rw [hblocks]
    exact addBlockLoop_overlay P (createBlocks idx L) done o l _ hpairbase hinitbase
      ⟨b0, hb0, hb0o, hb0l⟩ hno hdl rfl
  have hcond : (∀ pr ∈ basePairs idx L, pr.1 ∈ o :: done) ↔
      (∀ b ∈ createBlocks idx L, b.offset ∈ o :: done) := by
    simp [basePairs]
  have hlen1 : (splice p.data o ((P.drop o).take l)).length = L := by
    rw [splice_length p.data o _ (by rw [hbuflen, hdl]; omega), hbuflen]
  have hbuf1 : ∀ j, j < L →
      (splice p.data o ((P.drop o).take l)).getD j 0 =
        if coveredBy (createBlocks idx L) (o :: done) j then P.getD j 0 else 0 := by
    intro j hj
    rw [splice_getD p.data o _ (by rw [hbuflen, hdl]; omega) j]
    by_cases hr : o ≤ j ∧ j < o + ((P.drop o).take l).length
    · rw [if_pos hr]
      obtain ⟨hr1, hr2⟩ := hr
      rw [hdl] at hr2
      rw [take_drop_getD P o l (j - o) (by omega)]
      have hjo : o + (j - o) = j := by omega
      rw [hjo]
      rw [if_pos ((coveredBy_cons_iff (createBlocks idx L) done o l j hpairbase
        ⟨b0, hb0, hb0o, hb0l⟩).mpr (Or.inl ⟨hr1, hr2⟩))]
    · rw [if_neg hr, hbuf j hj]
      rw [hdl] at hr
      refine if_congr ?_ rfl rfl
      constructor
      · intro hc
        exact (coveredBy_cons_iff (createBlocks idx L) done o l j hpairbase
          ⟨b0, hb0, hb0o, hb0l⟩).mpr (Or.inr hc)
      · intro hc
        rcases (coveredBy_cons_iff (createBlocks idx L) done o l j hpairbase
          ⟨b0, hb0, hb0o, hb0l⟩).mp hc with h1 | h1
        · omega
        · exact h1
  rcases hE : p.add_block_data h o ((P.drop o).take l) with ⟨res, p'⟩
  unfold Piece.add_block_data at hE
  rw [if_neg hguard, hloop] at hE
  dsimp only at hE
  split at hE
  · rename_i hC
    unfold Piece.is_complete at hC
    dsimp only at hC
    have hall : ∀ b ∈ createBlocks idx L, b.offset ∈ o :: done :=
      (is_complete_overlay (createBlocks idx L) P (o :: done) hinitbase).mp hC
    injection hE with hres hp'
    subst hp'
    refine ⟨hres.symm, ?_, ?_⟩
    · intro hn
      exact absurd (hcond.mpr hall) hn
    · intro _
      have hdata : (splice p.data o ((P.drop o).take l)) = P := by
        refine bytes_ext _ P (by rw [hlen1, hP]) ?_
        intro j hj
        rw [hlen1] at hj
        rw [hbuf1 j hj, if_pos (coveredBy_all idx L (o :: done) j hj hall)]
      refine ⟨hdata, rfl, hhv, ?_⟩
      dsimp only
      unfold Piece.verify
      dsimp only
      rw [if_neg (by decide), hdata, hhv]
  · rename_i hC
    injection hE with hres hp'
    subst hp'
    refine ⟨hres.symm, ?_, ?_⟩
    · intro _
      exact ⟨hidx, hLp, hhv, hcomp, hver, rfl, hlen1, hbuf1⟩
    · intro hall
      unfold Piece.is_complete at hC
      dsimp only at hC
      exact absurd ((is_complete_overlay (createBlocks idx L) P (o :: done) hinitbase).mpr
        (hcond.mp hall)) hC


/-- C10: out-of-bounds piece indices (in particular, any index before a
bitfield arrives, when the bit array is empty) make `has_piece` return
`False` and `request_piece` refuse; the bit array is only indexed after the
bounds check, so no out-of-bounds access occurs. -/
theorem has_piece_request_piece_oob (s : PeerConnection) (i b l : Nat)
    (h : s.peer_pieces.length ≤ i) :
    s.has_piece i = false ∧ (s.request_piece i b l).1 = false := by
  constructor
  · have : ¬ (i < s.peer_pieces.length) := by omega
    simp [PeerConnection.has_piece, this]
  · unfold PeerConnection.request_piece
    split
    · rfl
    · split
      · rfl
      · split
        · rfl
        · rename_i h3
          simp only [Bool.or_eq_true, decide_eq_true_eq, Bool.not_eq_true'] at h3
          omega

theorem has_piece_request_piece_oob_witness :
    PeerConnection.init.peer_pieces.length ≤ 3 ∧
      (PeerConnection.init.has_piece 3 = false ∧
        (PeerConnection.init.request_piece 3 0 16384).1 = false) :=
  ⟨by decide, has_piece_request_piece_oob PeerConnection.init 3 0 16384 (by decide)⟩

/-- A session state that is connected and unchoked but has neither completed
the handshake nor sent `interested`, with the peer advertising piece 0. -/
def c5State : PeerConnection :=
  { PeerConnection.init with
    connected := true
    peer_choking := false
    peer_pieces := [true] }

/-- C5 counterexample: `request_piece` accepts (and emits a request) even
though `am_interested` is `False` and the handshake is not completed, i.e.
while `can_request()` is `False`; the claimed refusal condition is violated. -/
theorem request_piece_not_can_request :
    (c5State.request_piece 0 0 16384).1 = true ∧
      c5State.am_interested = false ∧
      c5State.handshake_completed = false ∧
      c5State.can_request = false := by decide

/-- C5 amended: `request_piece(index, begin, length)` is refused iff the
session is not connected, or they-choke-us holds, or the pending-request
total is at least `max_requests`, or the peer's availability lacks the piece;
`am_interested` and `handshake_completed` are not consulted. On accept it
appends `(begin, length)` to the pending-request set for that piece. -/
theorem request_piece_spec (s : PeerConnection) (i b l : Nat) :
    ((s.request_piece i b l).1 = false ↔
      (s.connected = false ∨ s.peer_choking = true ∨
        s.max_requests ≤ totalPending s ∨ s.has_piece i = false)) ∧
    ((s.request_piece i b l).1 = true →
      (s.request_piece i b l).2 =
        { s with pending_requests := pendingAdd s.pending_requests i (b, l) }) := by
  unfold PeerConnection.request_piece
  split
  · rename_i h1
    simp only [Bool.or_eq_true, Bool.not_eq_true'] at h1
    refine ⟨iff_of_true rfl ?_, ?_⟩
    · rcases h1 with h1 | h1
      · exact Or.inl h1
      · exact Or.inr (Or.inl h1)
    · intro hc
      simp at hc
  · rename_i h1
    simp only [Bool.or_eq_true, Bool.not_eq_true', not_or] at h1
    split
    · rename_i h2
      refine ⟨iff_of_true rfl (Or.inr (Or.inr (Or.inl h2))), ?_⟩
      intro hc
      simp at hc
    · rename_i h2
      push_neg at h2
      split
      · rename_i h3
        simp only [Bool.or_eq_true, decide_eq_true_eq, Bool.not_eq_true'] at h3
        refine ⟨iff_of_true rfl (Or.inr (Or.inr (Or.inr ?_))), ?_⟩
        · unfold PeerConnection.has_piece
          rcases h3 with h3 | h3
          · rw [decide_eq_false (by omega), Bool.false_and]
          · rw [h3, Bool.and_false]
        · intro hc
          simp at hc
      · rename_i h3
        simp only [Bool.or_eq_true, decide_eq_true_eq, Bool.not_eq_true', not_or] at h3
        refine ⟨iff_of_false (by simp) ?_, fun _ => rfl⟩
        rintro (hc | hc | hc | hc)
        · exact h1.1 hc
        · exact h1.2 hc
        · omega
        · unfold PeerConnection.has_piece at hc
          rw [decide_eq_true (by omega), Bool.true_and] at hc
          exact h3.2 hc

lemma lookup_cons_eq_if {β : Type} (a : Nat) (e : Nat × β) (t : List (Nat × β)) :
    List.lookup a (e :: t) = if a = e.1 then some e.2 else List.lookup a t := by
  rcases e with ⟨k, v⟩
  by_cases h : a = k
  · subst h
    simp [List.lookup_cons]
  · have hb : (a == k) = false := by
      simpa using h
    simp [List.lookup_cons, hb, h]

lemma keys_map_update {β : Type} (pr : List (Nat × β)) (i : Nat) (v : β) :
    (pr.map (fun e => if e.1 = i then (i, v) else e)).map Prod.fst = pr.map Prod.fst := by
  induction pr with
  | nil => rfl
  | cons e t ih =>
    by_cases h : e.1 = i <;> simp [h, ih]

lemma map_update_id {β : Type} (pr : List (Nat × β)) (i : Nat) (v : β)
    (h : ∀ e ∈ pr, e.1 ≠ i) :
    pr.map (fun e => if e.1 = i then (i, v) else e) = pr := by
  induction pr with
  | nil => rfl
  | cons e t ih =>
    rw [List.map_cons, if_neg (h e (by simp)), ih (fun x hx => h x (by simp [hx]))]

lemma sum_map_update_le (pr : List (Nat × List (Nat × Nat))) (i c : Nat)
    (ks v : List (Nat × Nat)) (hnd : (pr.map Prod.fst).Nodup)
    (hl : List.lookup i pr = some ks) (hv : v.length ≤ ks.length + c) :
    ((pr.map (fun e => if e.1 = i then (i, v) else e)).map (fun e => e.2.length)).sum ≤
      ((pr.map (fun e => e.2.length)).sum) + c := by
  induction pr with
  | nil => simp at hl
  | cons e t ih =>
    rw [lookup_cons_eq_if] at hl
    simp only [List.map_cons, List.nodup_cons] at hnd ⊢
    by_cases h : i = e.1
    · rw [if_pos h] at hl
      rw [if_pos h.symm]
      injection hl with hl
      subst hl
      have ht : t.map (fun e => if e.1 = i then (i, v) else e) = t := by
        refine map_update_id t i v ?_
        intro x hx hxi
        exact hnd.1 (by rw [← h, ← hxi]; exact List.mem_map_of_mem Prod.fst hx)
      rw [ht]
      simp only [List.sum_cons]
      omega
    · rw [if_neg h] at hl
      rw [if_neg (fun he => h he.symm)]
      have := ih hnd.2 hl
      simp only [List.sum_cons]
      omega

lemma totalPending_pendingAdd_le (pr : List (Nat × List (Nat × Nat))) (i : Nat)
    (k : Nat × Nat) (hnd : (pr.map Prod.fst).Nodup) :
    ((pendingAdd pr i k).map (fun e => e.2.length)).sum ≤
      ((pr.map (fun e => e.2.length)).sum) + 1 := by
  cases hl : List.lookup i pr with
  | none => simp [pendingAdd, hl]
  | some ks =>
    by_cases hk : k ∈ ks
    · simpa [pendingAdd, hl, hk] using sum_map_update_le pr i 1 ks ks hnd hl (by omega)
    · simpa [pendingAdd, hl, hk] using
        sum_map_update_le pr i 1 ks (ks ++ [k]) hnd hl (by simp)

lemma keys_pendingAdd_nodup (pr : List (Nat × List (Nat × Nat))) (i : Nat)
    (k : Nat × Nat) (hnd : (pr.map Prod.fst).Nodup) :
    ((pendingAdd pr i k).map Prod.fst).Nodup := by
  cases hl : List.lookup i pr with
  | none =>
    have hl2 := hl
    rw [List.lookup_eq_none_iff] at hl2
    simp only [pendingAdd, hl, List.map_append, List.map_cons, List.map_nil]
    rw [List.nodup_append]
    refine ⟨hnd, List.nodup_singleton i, ?_⟩
    intro a ha hb
    simp only [List.mem_singleton] at hb
    subst hb
    obtain ⟨p, hp, hpa⟩ := List.mem_map.mp ha
    have hne := hl2 p hp
    rw [bne_iff_ne] at hne
    exact hne hpa.symm
  | some ks =>
    simp only [pendingAdd, hl]
    split
    · rw [keys_map_update]
      exact hnd
    · rw [keys_map_update]
      exact hnd

lemma totalPending_pendingDiscard_le (pr : List (Nat × List (Nat × Nat))) (i : Nat)
    (k : Nat × Nat) (hnd : (pr.map Prod.fst).Nodup) :
    ((pendingDiscard pr i k).map (fun e => e.2.length)).sum ≤
      ((pr.map (fun e => e.2.length)).sum) := by
  cases hl : List.lookup i pr with
  | none =>
    simp only [pendingDiscard, hl]
    exact le_refl _
  | some ks =>
    simp only [pendingDiscard, hl]
    split
    · refine List.Sublist.sum_le_sum ?_ ?_
      · exact (List.filter_sublist pr).map _
      · intro x hx
        omega
    · have h0 : (ks.filter (fun x => x ≠ k)).length ≤ ks.length + 0 := by
        have := List.length_filter_le (fun x => x ≠ k) ks
        omega
      have := sum_map_update_le pr i 0 ks (ks.filter (fun x => x ≠ k)) hnd hl h0
      omega

lemma keys_pendingDiscard_nodup (pr : List (Nat × List (Nat × Nat))) (i : Nat)
    (k : Nat × Nat) (hnd : (pr.map Prod.fst).Nodup) :
    ((pendingDiscard pr i k).map Prod.fst).Nodup := by
  cases hl : List.lookup i pr with
  | none =>
    simp only [pendingDiscard, hl]
    exact hnd
  | some ks =>
    simp only [pendingDiscard, hl]
    split
    · exact ((List.filter_sublist pr).map Prod.fst).nodup hnd
    · rw [keys_map_update]
      exact hnd

lemma lookup_map_update_self {β : Type} (l : List (Nat × β)) (i : Nat) (v : β)
    (hl : (List.lookup i l).isSome) :
    List.lookup i (l.map (fun e => if e.1 = i then (i, v) else e)) = some v := by
  induction l with
  | nil => simp at hl
  | cons e t ih =>
    rw [lookup_cons_eq_if] at hl
    rw [List.map_cons]
    by_cases h : e.1 = i
    · rw [if_pos h, lookup_cons_eq_if]
      simp
    · rw [if_neg h, lookup_cons_eq_if, if_neg (fun hh => h hh.symm)]
      rw [if_neg (fun hh => h hh.symm)] at hl
      exact ih hl

lemma markFirstMissing_head_mem (bs : List Block) (b : Block) (r : List Block)
    (hm : bs.filter (fun x => !x.received && !x.requested) = b :: r) :
    { b with requested := true } ∈ markFirstMissing bs := by
  induction bs with
  | nil => simp at hm
  | cons x t ih =>
    by_cases hx : (!x.received && !x.requested) = true
    · rw [List.filter_cons, if_pos hx] at hm
      injection hm with h1 h2
      subst h1
      unfold markFirstMissing
      rw [if_pos hx]
      exact List.mem_cons_self _ _
    · rw [List.filter_cons, if_neg hx] at hm
      unfold markFirstMissing
      rw [if_neg hx]
      exact List.mem_cons_of_mem _ (ih hm)

lemma gnrLoop_eq_some (m : PieceManager) (l : List Nat) (i off ln : Nat)
    (m' : PieceManager) (hres : gnrLoop m l = (some (i, off, ln), m')) :
    ∃ p b r, List.lookup i m.pieces = some p ∧
      p.get_missing_blocks = b :: r ∧ b.offset = off ∧ b.length = ln ∧
      m' = updatePiece m i { p with blocks := markFirstMissing p.blocks } := by
  induction l with
  | nil => simp [gnrLoop] at hres
  | cons j t ih =>
    cases hl : List.lookup j m.pieces with
    | none =>
      simp [gnrLoop, hl] at hres
    | some p =>
      cases hmb : p.get_missing_blocks with
      | nil =>
        simp only [gnrLoop, hl, hmb] at hres
        exact ih hres
      | cons b r =>
        simp only [gnrLoop, hl, hmb, Prod.mk.injEq, Option.some.injEq] at hres
        obtain ⟨⟨hj, hoff, hlen⟩, hm'⟩ := hres
        subst hj
        exact ⟨p, b, r, hl, hmb, hoff, hlen, hm'.symm⟩

lemma gnrLoop_decomp (m : PieceManager) (l : List Nat) (i off ln : Nat)
    (m' : PieceManager) (hres : gnrLoop m l = (some (i, off, ln), m')) :
    ∃ l1 l2, l = l1 ++ i :: l2 ∧
      ∀ j ∈ l1, ∃ q, List.lookup j m.pieces = some q ∧ q.get_missing_blocks = [] := by
  induction l with
  | nil => simp [gnrLoop] at hres
  | cons j t ih =>
    cases hl : List.lookup j m.pieces with
    | none =>
      simp [gnrLoop, hl] at hres
    | some p =>
      cases hmb : p.get_missing_blocks with
      | nil =>
        simp only [gnrLoop, hl, hmb] at hres
        obtain ⟨l1, l2, hsplit, hall⟩ := ih hres
        refine ⟨j :: l1, l2, by rw [hsplit, List.cons_append], ?_⟩
        intro x hx
        rcases List.mem_cons.mp hx with hx | hx
        · subst hx
          exact ⟨p, hl, hmb⟩
        · exact hall x hx
      | cons b r =>
        simp only [gnrLoop, hl, hmb, Prod.mk.injEq, Option.some.injEq] at hres
        refine ⟨[], t, ?_, by simp⟩
        rw [hres.1.1]
        rfl

/-- C3: when `get_next_request` returns `(piece_index, offset, length)`, the
designated block was neither received nor requested in the pre-state, and in
the post-state that block is marked requested. -/
theorem next_request_fresh_block (m : PieceManager) (avail : List Nat)
    (i off ln : Nat) (hres : (get_next_request m avail).1 = some (i, off, ln)) :
    (∃ p, List.lookup i m.pieces = some p ∧
      ∃ b ∈ p.blocks, b.offset = off ∧ b.length = ln ∧
        b.received = false ∧ b.requested = false) ∧
    (∃ p', List.lookup i (get_next_request m avail).2.pieces = some p' ∧
      ∃ b' ∈ p'.blocks, b'.offset = off ∧ b'.length = ln ∧ b'.requested = true) := by
  rcases hE : get_next_request m avail with ⟨o, m'⟩
  rw [hE] at hres
  dsimp only at hres
  subst hres
  dsimp only
  simp only [get_next_request] at hE
  split at hE
  · exact absurd hE (by simp)
  · obtain ⟨p, b, r, hl, hmb, hoff, hlen, hm'⟩ := gnrLoop_eq_some m _ i off ln m' hE
    have hbmem : b ∈ p.get_missing_blocks := by rw [hmb]; exact List.mem_cons_self _ _
    unfold Piece.get_missing_blocks at hbmem
    have hbf := List.mem_filter.mp hbmem
    have hflags : b.received = false ∧ b.requested = false := by
      have h2 := hbf.2
      simp only [Bool.and_eq_true, Bool.not_eq_true'] at h2
      exact h2
    constructor
    · exact ⟨p, hl, b, hbf.1, hoff, hlen, hflags.1, hflags.2⟩
    · refine ⟨{ p with blocks := markFirstMissing p.blocks }, ?_, ?_⟩
      · rw [hm']
        simp only [updatePiece]
        exact lookup_map_update_self m.pieces i _ (by rw [hl]; rfl)
      · refine ⟨{ b with requested := true },
          markFirstMissing_head_mem p.blocks b r ?_, hoff, hlen, rfl⟩
        unfold Piece.get_missing_blocks at hmb
        exact hmb

/-- A two-piece store used as a concrete input: both pieces fresh
single-block pieces, neither completed. -/
def c4Store : PieceManager :=
  { pieces := [(0, Piece.init 0 1 [9]), (1, Piece.init 1 1 [9])]
    completed_pieces := [] }

theorem next_request_fresh_block_witness :
    (get_next_request c4Store [0, 1]).1 = some (0, 0, 1) ∧
      ((∃ p, List.lookup 0 c4Store.pieces = some p ∧
        ∃ b ∈ p.blocks, b.offset = 0 ∧ b.length = 1 ∧
          b.received = false ∧ b.requested = false) ∧
      (∃ p', List.lookup 0 (get_next_request c4Store [0, 1]).2.pieces = some p' ∧
        ∃ b' ∈ p'.blocks, b'.offset = 0 ∧ b'.length = 1 ∧ b'.requested = true)) :=
  ⟨by decide, next_request_fresh_block c4Store [0, 1] 0 0 1 (by decide)⟩

lemma missKey_eq (m : PieceManager) (i : Nat) (p : Piece)
    (hl : List.lookup i m.pieces = some p) :
    missKey m i = p.get_missing_blocks.length := by
  unfold missKey
  rw [hl]

lemma pair_sublist_mem_left {α : Type} {j i : α} {l1 l2 : List α}
    (hnd : (l1 ++ i :: l2).Nodup) (hne : j ≠ i) (hsub : List.Sublist [j, i] (l1 ++ i :: l2)) :
    j ∈ l1 := by
  induction l1 with
  | nil =>
    simp only [List.nil_append] at hsub hnd
    cases hsub with
    | cons _ h =>
      have hmem : i ∈ l2 := h.subset (by simp)
      simp only [List.nodup_cons] at hnd
      exact absurd hmem hnd.1
    | cons₂ _ _ => exact absurd rfl hne
  | cons x t ih =>
    rw [List.cons_append] at hsub hnd
    simp only [List.nodup_cons] at hnd
    cases hsub with
    | cons _ h => exact List.mem_cons_of_mem x (ih hnd.2 h)
    | cons₂ _ _ => exact List.mem_cons_self _ _

/-- C4 counterexample: with both pieces fresh (one missing block each,
so tied on the missing-block count), piece 0 present, not completed and of
smaller index, `get_next_request` still returns piece 1 when the available
set iterates as `[1, 0]` — CPython set iteration order is not ascending
(e.g. `list({8, 1}) == [8, 1]`), so ties are not broken by ascending piece
index. -/
theorem next_request_tie_not_ascending :
    (get_next_request c4Store [1, 0]).1 = some (1, 0, 1) ∧
      (List.lookup 0 c4Store.pieces).isSome = true ∧
      (0 : Nat) ∉ c4Store.completed_pieces ∧
      missKey c4Store 0 = 1 ∧ missKey c4Store 1 = 1 := by decide

/-- C4 amended: among the available pieces that exist, are not completed and
still have a missing block, `get_next_request` selects one with the fewest
missing blocks, with ties broken by the iteration order of the available set
(the stable sort keeps earlier-iterated pieces first), not by ascending
piece index; within the chosen piece it returns the first missing block,
whose offset is minimal when the piece's blocks are in ascending offset
order. -/
theorem next_request_selection (m : PieceManager) (avail : List Nat)
    (i off ln : Nat) (hnd : avail.Nodup)
    (hres : (get_next_request m avail).1 = some (i, off, ln)) :
    i ∈ avail ∧ i ∉ m.completed_pieces ∧
    ∃ p, List.lookup i m.pieces = some p ∧
      (∃ b rb, p.get_missing_blocks = b :: rb ∧ b.offset = off ∧ b.length = ln) ∧
      (p.blocks.Pairwise (fun x y => x.offset ≤ y.offset) →
        ∀ b' ∈ p.get_missing_blocks, off ≤ b'.offset) ∧
      (∀ j ∈ avail, j ∉ m.completed_pieces →
        ∀ q, List.lookup j m.pieces = some q → q.get_missing_blocks ≠ [] →
          p.get_missing_blocks.length ≤ q.get_missing_blocks.length) ∧
      (∀ j q, List.Sublist [j, i] avail → j ∉ m.completed_pieces →
        List.lookup j m.pieces = some q → q.get_missing_blocks ≠ [] →
          p.get_missing_blocks.length < q.get_missing_blocks.length) := by
  have hTot : IsTotal Nat (fun a b => missKey m a ≤ missKey m b) :=
    ⟨fun a b => Nat.le_total (missKey m a) (missKey m b)⟩
  have hTrans : IsTrans Nat (fun a b => missKey m a ≤ missKey m b) :=
    ⟨fun a b c hab hbc => Nat.le_trans hab hbc⟩
  rcases hE : get_next_request m avail with ⟨o, m'⟩
  rw [hE] at hres
  dsimp only at hres
  subst hres
  simp only [get_next_request] at hE
  split at hE
  · exact absurd hE (by simp)
  · obtain ⟨p, b, rb, hl, hmb, hoff, hlen, _⟩ := gnrLoop_eq_some m _ i off ln m' hE
    obtain ⟨l1, l2, hsplit, hempty⟩ := gnrLoop_decomp m _ i off ln m' hE
    have hiS : i ∈ List.insertionSort (fun a b => missKey m a ≤ missKey m b)
        (avail.filter (fun j => (List.lookup j m.pieces).isSome && !m.completed_pieces.contains j)) := by
      rw [hsplit]
      exact List.mem_append_right l1 (List.mem_cons_self _ _)
    have hiN := (List.mem_insertionSort _).mp hiS
    have hif := List.mem_filter.mp hiN
    have hicomp : i ∉ m.completed_pieces := by
      have h2 := hif.2
      simp only [Bool.and_eq_true, Bool.not_eq_true'] at h2
      simpa using h2.2
    have hsortedS : List.Sorted (fun a b => missKey m a ≤ missKey m b)
        (List.insertionSort (fun a b => missKey m a ≤ missKey m b)
          (avail.filter (fun j => (List.lookup j m.pieces).isSome && !m.completed_pieces.contains j))) :=
      List.sorted_insertionSort _ _
    have hmin : ∀ j ∈ avail, j ∉ m.completed_pieces →
        ∀ q, List.lookup j m.pieces = some q → q.get_missing_blocks ≠ [] →
          p.get_missing_blocks.length ≤ q.get_missing_blocks.length := by
      intro j hj hjc q hql hqne
      have hjf : j ∈ avail.filter
          (fun j => (List.lookup j m.pieces).isSome && !m.completed_pieces.contains j) := by
        refine List.mem_filter.mpr ⟨hj, ?_⟩
        simp [hql, hjc]
      have hjS : j ∈ List.insertionSort (fun a b => missKey m a ≤ missKey m b)
          (avail.filter
            (fun x => (List.lookup x m.pieces).isSome && !m.completed_pieces.contains x)) :=
        (List.mem_insertionSort _).mpr hjf
      rw [hsplit] at hjS
      rcases List.mem_append.mp hjS with hj1 | hj2
      · obtain ⟨q', hq'l, hq'e⟩ := hempty j hj1
        rw [hql] at hq'l
        injection hq'l with hq'l
        rw [← hq'l] at hq'e
        exact absurd hq'e hqne
      · rcases List.mem_cons.mp hj2 with hj2 | hj2
        · subst hj2
          rw [hql] at hl
          injection hl with hl
          rw [hl]
        · have hpw : List.Pairwise (fun a b => missKey m a ≤ missKey m b) (i :: l2) := by
            refine List.Pairwise.sublist ?_ (hsplit ▸ hsortedS)
            exact List.sublist_append_right l1 _
          have hrij : missKey m i ≤ missKey m j := (List.pairwise_cons.mp hpw).1 j hj2
          rw [missKey_eq m i p hl, missKey_eq m j q hql] at hrij
          exact hrij
    refine ⟨hif.1, hicomp, p, hl, ⟨b, rb, hmb, hoff, hlen⟩, ?_, hmin, ?_⟩
    · intro hpw b' hb'
      have hmpw : List.Pairwise (fun x y => x.offset ≤ y.offset) p.get_missing_blocks := by
        refine List.Pairwise.sublist ?_ hpw
        unfold Piece.get_missing_blocks
        exact List.filter_sublist p.blocks
      rw [hmb] at hmpw hb'
      rcases List.mem_cons.mp hb' with hb' | hb'
      · rw [hb', ← hoff]
      · rw [← hoff]
        exact (List.pairwise_cons.mp hmpw).1 b' hb'
    · intro j q hsub hjc hql hqne
      have hne : j ≠ i := by
        intro hji
        subst hji
        have := List.Nodup.sublist hsub hnd
        simp at this
      have hj : j ∈ avail := hsub.subset (by simp)
      by_contra hlt
      push_neg at hlt
      have hle := hmin j hj hjc q hql hqne
      have heq : missKey m j = missKey m i := by
        rw [missKey_eq m j q hql, missKey_eq m i p hl]
        omega
      have hjf : List.Sublist [j, i] (avail.filter
          (fun j => (List.lookup j m.pieces).isSome && !m.completed_pieces.contains j)) := by
        have hfs := hsub.filter
          (fun j => (List.lookup j m.pieces).isSome && !m.completed_pieces.contains j)
        have hji : List.filter
            (fun j => (List.lookup j m.pieces).isSome && !m.completed_pieces.contains j)
            [j, i] = [j, i] := by
          have hpj : ((List.lookup j m.pieces).isSome && !m.completed_pieces.contains j) = true := by
            simp [hql, hjc]
          have hpi : ((List.lookup i m.pieces).isSome && !m.completed_pieces.contains i) = true := by
            simp [hl, hicomp]
          rw [List.filter_cons, if_pos hpj, List.filter_cons, if_pos hpi, List.filter_nil]
        rwa [hji] at hfs
      have hpair : List.Sublist [j, i]
          (List.insertionSort (fun a b => missKey m a ≤ missKey m b)
            (avail.filter
              (fun x => (List.lookup x m.pieces).isSome && !m.completed_pieces.contains x))) :=
        List.pair_sublist_insertionSort heq.le hjf
      rw [hsplit] at hpair
      have hndS : (l1 ++ i :: l2).Nodup := by
        rw [← hsplit]
        refine (List.Perm.nodup_iff (List.perm_insertionSort _ _)).mpr ?_
        exact List.Nodup.filter _ hnd
      have hjl1 := pair_sublist_mem_left hndS hne hpair
      obtain ⟨q', hq'l, hq'e⟩ := hempty j hjl1
      rw [hql] at hq'l
      injection hq'l with hq'l
      rw [← hq'l] at hq'e
      exact absurd hq'e hqne

theorem next_request_selection_witness :
    ([1, 0] : List Nat).Nodup ∧
    ((get_next_request c4Store [1, 0]).1 = some (1, 0, 1)) ∧
    ((1 : Nat) ∈ [1, 0] ∧ (1 : Nat) ∉ c4Store.completed_pieces ∧
      ∃ p, List.lookup 1 c4Store.pieces = some p ∧
        (∃ b rb, p.get_missing_blocks = b :: rb ∧ b.offset = 0 ∧ b.length = 1) ∧
        (p.blocks.Pairwise (fun x y => x.offset ≤ y.offset) →
          ∀ b' ∈ p.get_missing_blocks, 0 ≤ b'.offset) ∧
        (∀ j ∈ [1, 0], j ∉ c4Store.completed_pieces →
          ∀ q, List.lookup j c4Store.pieces = some q → q.get_missing_blocks ≠ [] →
            p.get_missing_blocks.length ≤ q.get_missing_blocks.length) ∧
        (∀ j q, List.Sublist [j, 1] [1, 0] → j ∉ c4Store.completed_pieces →
          List.lookup j c4Store.pieces = some q → q.get_missing_blocks ≠ [] →
            p.get_missing_blocks.length < q.get_missing_blocks.length)) :=
  ⟨by decide, by decide, next_request_selection c4Store [1, 0] 1 0 1 (by decide) (by decide)⟩

lemma addBlockLoop_none (bs : List Block) (off : Nat) (d : Bytes)
    (h : ∀ b ∈ bs, b.offset = off → b.length = d.length → b.received = true) :
    addBlockLoop bs off d = none := by
  induction bs with
  | nil => rfl
  | cons b t ih =>
    unfold addBlockLoop
    rw [if_neg, ih (fun x hx => h x (List.mem_cons_of_mem b hx))]
    · rfl
    · rintro ⟨h1, h2, h3⟩
      rw [h b (List.mem_cons_self b t) h1 h2] at h3
      exact absurd h3 (by decide)

lemma map_update_lookup_self {β : Type} (l : List (Nat × β)) (i : Nat) (v : β)
    (hknd : (l.map Prod.fst).Nodup) (hl : List.lookup i l = some v) :
    l.map (fun e => if e.1 = i then (i, v) else e) = l := by
  induction l with
  | nil => rfl
  | cons e t ih =>
    rw [lookup_cons_eq_if] at hl
    simp only [List.map_cons, List.nodup_cons] at hknd
    by_cases hh : i = e.1
    · rw [if_pos hh] at hl
      injection hl with hl
      have he : (i, v) = e := by
        rcases e with ⟨a, b2⟩
        simp only at hh hl
        rw [hh, ← hl]
      have ht : t.map (fun e => if e.1 = i then (i, v) else e) = t := by
        refine map_update_id t i v ?_
        intro x hx hxi
        exact hknd.1 (by rw [← hh, ← hxi]; exact List.mem_map_of_mem Prod.fst hx)
      rw [List.map_cons, if_pos hh.symm, ht, he]
    · rw [if_neg hh] at hl
      rw [List.map_cons, if_neg (fun hc => hh hc.symm), ih hknd.2 hl]

lemma updatePiece_self (m : PieceManager) (i : Nat) (p : Piece)
    (hknd : (m.pieces.map Prod.fst).Nodup) (hl : List.lookup i m.pieces = some p) :
    updatePiece m i p = m := by
  unfold updatePiece
  rw [map_update_lookup_self m.pieces i p hknd hl]

lemma add_block_data_no_match (h : Bytes → Bytes) (p : Piece) (off : Nat) (d : Bytes)
    (hno : addBlockLoop p.blocks off d = none) :
    p.add_block_data h off d = (false, p) := by
  unfold Piece.add_block_data
  split
  · rfl
  · rw [hno]

/-- C8/C9 shared: when every block of the piece matching `(off, d.length)` is
already received (in particular on a duplicate ingest), `add_piece_data` on a
non-completed piece returns `False` and leaves the store unchanged, firing no
callback. -/
lemma ingest_no_fresh_match (h : Bytes → Bytes) (m : PieceManager) (i off : Nat)
    (d : Bytes) (p : Piece)
    (hknd : (m.pieces.map Prod.fst).Nodup)
    (hl : List.lookup i m.pieces = some p) (hc : p.completed = false)
    (hdup : ∀ b ∈ p.blocks, b.offset = off → b.length = d.length → b.received = true) :
    add_piece_data h m i off d = (false, m, []) := by
  have hadd := add_block_data_no_match h p off d (addBlockLoop_none p.blocks off d hdup)
  simp only [add_piece_data, hl]
  rw [if_neg (by simp [hc]), hadd]
  simp only [Bool.false_and, Bool.false_eq_true, if_false]
  rw [updatePiece_self m i p hknd hl]

/-- A reachable store whose single one-block piece has been completed and
verified by a first correct ingest. -/
def c9Hash : Bytes → Bytes := fun b => if b = [7] then [9] else [0]

def c9Store0 : PieceManager :=
  { pieces := [(0, Piece.init 0 1 [9])], completed_pieces := [] }

def c9Store : PieceManager := (add_piece_data c9Hash c9Store0 0 0 [7]).2.1

/-- C9 counterexample: ingesting into an already-complete piece returns
`True` (the source's `return True  # Already completed`), not the Rejected
(`False`) the claim demands; the state is left unchanged. -/
theorem ingest_on_complete_piece_returns_true :
    (List.lookup 0 c9Store.pieces).map Piece.completed = some true ∧
      add_piece_data c9Hash c9Store 0 0 [7] = (true, c9Store, []) := by
  decide

/-- C9 amended: `ingest` with an unknown piece index, or with an
`(offset, length)` matching no block of the piece, returns `False` (Rejected)
and leaves the whole store unchanged with no callback; but an ingest for an
already-complete piece returns `True` (AlreadyComplete maps to the same
`True` as Accepted), also leaving the store unchanged. -/
theorem ingest_failure_semantics (h : Bytes → Bytes) (m : PieceManager)
    (i off : Nat) (d : Bytes) :
    (List.lookup i m.pieces = none → add_piece_data h m i off d = (false, m, [])) ∧
    (∀ p, List.lookup i m.pieces = some p → (m.pieces.map Prod.fst).Nodup →
      p.completed = false →
      (∀ b ∈ p.blocks, ¬(b.offset = off ∧ b.length = d.length)) →
      add_piece_data h m i off d = (false, m, [])) ∧
    (∀ p, List.lookup i m.pieces = some p → p.completed = true →
      add_piece_data h m i off d = (true, m, [])) := by
  refine ⟨?_, ?_, ?_⟩
  · intro hl
    simp only [add_piece_data, hl]
  · intro p hl hknd hc hno
    refine ingest_no_fresh_match h m i off d p hknd hl hc ?_
    intro b hb h1 h2
    exact absurd ⟨h1, h2⟩ (hno b hb)
  · intro p hl hc
    simp only [add_piece_data, hl]
    rw [if_pos hc]

theorem ingest_failure_semantics_witness :
    (List.lookup 5 c9Store0.pieces = none →
      add_piece_data c9Hash c9Store0 5 0 [7] = (false, c9Store0, [])) ∧
    (∀ p, List.lookup 5 c9Store0.pieces = some p → (c9Store0.pieces.map Prod.fst).Nodup →
      p.completed = false →
      (∀ b ∈ p.blocks, ¬(b.offset = 0 ∧ b.length = ([7] : Bytes).length)) →
      add_piece_data c9Hash c9Store0 5 0 [7] = (false, c9Store0, [])) ∧
    (∀ p, List.lookup 5 c9Store0.pieces = some p → p.completed = true →
      add_piece_data c9Hash c9Store0 5 0 [7] = (true, c9Store0, [])) :=
  ingest_failure_semantics c9Hash c9Store0 5 0 [7]

/-- A piece store holding one two-block piece whose first block has been
received (as after a first correct 16 KiB-block ingest, with the block
geometry scaled down so that the state stays kernel-evaluable). -/
def c8Piece : Piece :=
  { index := 0
    length := 2
    hash_value := [9]
    blocks := [{ piece_index := 0, offset := 0, length := 1, data := some [7],
                 requested := false, received := true },
               { piece_index := 0, offset := 1, length := 1, data := none,
                 requested := false, received := false }]
    completed := false
    verified := false
    data := [7, 0] }

def c8Store : PieceManager :=
  { pieces := [(0, c8Piece)], completed_pieces := [] }

/-- C8 counterexample: a duplicate ingest of the already-received block
`(0, length 1)` of the not-yet-complete piece leaves the state unchanged but
returns `False` (Rejected), not Accepted: the source's `return True` sits
inside `if not block.received:`, so the loop falls through to `return False`
for an already-received block. -/
theorem duplicate_ingest_not_accepted :
    c8Piece.completed = false ∧
      (∃ b ∈ c8Piece.blocks, b.offset = 0 ∧ b.length = 1 ∧ b.received = true) ∧
      add_piece_data c9Hash c8Store 0 0 [7] = (false, c8Store, []) := by
  refine ⟨rfl, ⟨?_, ?_⟩⟩
  · exact ⟨c8Piece.blocks.head (by decide), by decide, by decide⟩
  · decide

/-- C8 amended: a duplicate ingest of an already-received block (same piece
index, offset and length) of a not-yet-complete piece is idempotent — it
leaves the entire piece-store state unchanged and fires no callback — but it
returns `False` (Rejected), not Accepted. -/
theorem duplicate_ingest_idempotent_rejected (h : Bytes → Bytes)
    (m : PieceManager) (i off : Nat) (d : Bytes) (p : Piece)
    (hknd : (m.pieces.map Prod.fst).Nodup)
    (hl : List.lookup i m.pieces = some p) (hc : p.completed = false)
    (hdup : ∃ b ∈ p.blocks, b.offset = off ∧ b.length = d.length ∧ b.received = true)
    (hall : ∀ b ∈ p.blocks, b.offset = off → b.length = d.length → b.received = true) :
    add_piece_data h m i off d = (false, m, []) :=
  ingest_no_fresh_match h m i off d p hknd hl hc hall

theorem duplicate_ingest_idempotent_rejected_witness :
    (c8Store.pieces.map Prod.fst).Nodup ∧
      List.lookup 0 c8Store.pieces = some c8Piece ∧ c8Piece.completed = false ∧
      (∃ b ∈ c8Piece.blocks, b.offset = 0 ∧ b.length = ([7] : Bytes).length ∧
        b.received = true) ∧
      add_piece_data c9Hash c8Store 0 0 [7] = (false, c8Store, []) := by
  refine ⟨by decide, by decide, rfl, ?_, ?_⟩
  · exact ⟨c8Piece.blocks.head (by decide), by decide, by decide⟩
  · exact duplicate_ingest_idempotent_rejected c9Hash c8Store 0 0 [7] c8Piece
      (by decide) (by decide) rfl
      ⟨c8Piece.blocks.head (by decide), by decide, by decide⟩
      (by decide)

lemma add_block_data_complete_verified (h : Bytes → Bytes) (p : Piece) (off : Nat)
    (d : Bytes) (p' : Piece) (hc : p.completed = false)
    (hsucc : p.add_block_data h off d = (true, p')) (hcomp : p'.completed = true) :
    p'.hash_value = p.hash_value ∧
    p'.verified = decide (h p'.data = p'.hash_value) := by
  unfold Piece.add_block_data at hsucc
  split at hsucc
  · exact absurd hsucc (by simp)
  · cases hbl : addBlockLoop p.blocks off d with
    | none =>
      rw [hbl] at hsucc
      exact absurd hsucc (by simp)
    | some blocks' =>
      rw [hbl] at hsucc
      dsimp only at hsucc
      split at hsucc
      · injection hsucc with h1 hp'
        subst hp'
        exact ⟨rfl, by unfold Piece.verify; rfl⟩
      · injection hsucc with h1 hp'
        rw [← hp'] at hcomp
        rw [hc] at hcomp
        exact absurd hcomp (by decide)

/-- C7: when a block ingest completes a piece whose buffer digest does not
match the expected digest, `add_piece_data` resets the piece to Empty —
zeroed buffer, all block data/received/requested flags cleared, `completed`
and `verified` false — fires no completion callback (so nothing reaches the
File Writer), and the completed set is unchanged. -/
theorem corrupt_piece_reset (h : Bytes → Bytes) (m : PieceManager) (i off : Nat)
    (d : Bytes) (p p' : Piece)
    (hl : List.lookup i m.pieces = some p) (hc : p.completed = false)
    (hsucc : p.add_block_data h off d = (true, p')) (hcomp : p'.completed = true)
    (hmis : h p'.data ≠ p'.hash_value) :
    add_piece_data h m i off d = (true, updatePiece m i (resetPiece p'), []) ∧
    (updatePiece m i (resetPiece p')).completed_pieces = m.completed_pieces ∧
    List.lookup i (updatePiece m i (resetPiece p')).pieces = some (resetPiece p') ∧
    (resetPiece p').completed = false ∧ (resetPiece p').verified = false ∧
    (resetPiece p').data = List.replicate p'.length 0 ∧
    ∀ b ∈ (resetPiece p').blocks,
      b.data = none ∧ b.received = false ∧ b.requested = false := by
  have hver : p'.verified = false := by
    rw [(add_block_data_complete_verified h p off d p' hc hsucc hcomp).2]
    exact decide_eq_false hmis
  refine ⟨?_, rfl, ?_, rfl, rfl, rfl, ?_⟩
  · simp only [add_piece_data, hl]
    rw [if_neg (by simp [hc]), hsucc]
    dsimp only
    rw [hcomp, hver]
    rfl
  · unfold updatePiece
    exact lookup_map_update_self m.pieces i _ (by rw [hl]; rfl)
  · intro b hb
    unfold resetPiece at hb
    simp only [List.mem_map] at hb
    obtain ⟨b0, _, hb0⟩ := hb
    rw [← hb0]
    exact ⟨rfl, rfl, rfl⟩

/-- The piece state after ingesting wrong bytes `[5]` into the fresh
one-block piece of `c9Store0` (digest of `[5]` is `[0] ≠ [9]`). -/
def c7After : Piece := ((Piece.init 0 1 [9]).add_block_data c9Hash 0 [5]).2

theorem corrupt_piece_reset_witness :
    List.lookup 0 c9Store0.pieces = some (Piece.init 0 1 [9]) ∧
    (Piece.init 0 1 [9]).completed = false ∧
    (Piece.init 0 1 [9]).add_block_data c9Hash 0 [5] = (true, c7After) ∧
    c7After.completed = true ∧
    c9Hash c7After.data ≠ c7After.hash_value ∧
    (add_piece_data c9Hash c9Store0 0 0 [5] =
        (true, updatePiece c9Store0 0 (resetPiece c7After), []) ∧
      (updatePiece c9Store0 0 (resetPiece c7After)).completed_pieces =
        c9Store0.completed_pieces ∧
      List.lookup 0 (updatePiece c9Store0 0 (resetPiece c7After)).pieces =
        some (resetPiece c7After) ∧
      (resetPiece c7After).completed = false ∧ (resetPiece c7After).verified = false ∧
      (resetPiece c7After).data = List.replicate c7After.length 0 ∧
      ∀ b ∈ (resetPiece c7After).blocks,
        b.data = none ∧ b.received = false ∧ b.requested = false) :=
  ⟨by decide, rfl, by decide, by decide, by decide,
    corrupt_piece_reset c9Hash c9Store0 0 0 [5] (Piece.init 0 1 [9]) c7After
      (by decide) rfl (by decide) (by decide) (by decide)⟩

/-- The inductive invariant behind the pipeline cap: `max_requests` stays 5,
the pending dict has duplicate-free keys, and the outstanding total is at
most 5. -/
def peerInv (s : PeerConnection) : Prop :=
  s.max_requests = 5 ∧ (s.pending_requests.map Prod.fst).Nodup ∧ totalPending s ≤ 5

lemma peerInv_init : peerInv PeerConnection.init := by
  refine ⟨rfl, ?_, ?_⟩ <;> simp [PeerConnection.init, totalPending]

lemma peerInv_step {s s' : PeerConnection} (hstep : PeerStep s s') (hinv : peerInv s) :
    peerInv s' := by
  obtain ⟨hmax, hnd, htot⟩ := hinv
  cases hstep with
  | req i b l =>
    unfold PeerConnection.request_piece
    split
    · exact ⟨hmax, hnd, htot⟩
    · split
      · exact ⟨hmax, hnd, htot⟩
      · split
        · exact ⟨hmax, hnd, htot⟩
        · rename_i hcap _
          refine ⟨hmax, keys_pendingAdd_nodup _ _ _ hnd, ?_⟩
          have hb := totalPending_pendingAdd_le s.pending_requests i (b, l) hnd
          unfold totalPending at hcap
          show ((pendingAdd s.pending_requests i (b, l)).map (fun e => e.2.length)).sum ≤ 5
          rw [hmax] at hcap
          omega
  | piece i b d =>
    refine ⟨hmax, keys_pendingDiscard_nodup _ _ _ hnd, ?_⟩
    have := totalPending_pendingDiscard_le s.pending_requests i (b, d.length) hnd
    unfold totalPending at htot ⊢
    unfold PeerConnection.handle_piece
    simp only at this ⊢
    omega

/-- C6: in every state of a peer session reachable by any interleaving of
`request_piece` calls and inbound `piece` messages, the total number of
outstanding block requests never exceeds 5. -/
theorem pending_requests_capped (s : PeerConnection) (hs : PeerReachable s) :
    totalPending s ≤ 5 := by
  suffices h : peerInv s from h.2.2
  induction hs with
  | refl => exact peerInv_init
  | tail _ hstep ih => exact peerInv_step hstep ih

theorem pending_requests_capped_witness :
    totalPending PeerConnection.init ≤ 5 :=
  pending_requests_capped PeerConnection.init Relation.ReflTransGen.refl

theorem request_piece_spec_witness :
    ((c5State.request_piece 0 0 16384).1 = false ↔
      (c5State.connected = false ∨ c5State.peer_choking = true ∨
        c5State.max_requests ≤ totalPending c5State ∨ c5State.has_piece 0 = false)) ∧
    ((c5State.request_piece 0 0 16384).1 = true →
      (c5State.request_piece 0 0 16384).2 =
        { c5State with pending_requests := pendingAdd c5State.pending_requests 0 (0, 16384) }) :=
  request_piece_spec c5State 0 0 16384

lemma mem_setAdd_self (s : List Nat) (i : Nat) : i ∈ setAdd s i := by
  unfold setAdd
  split
  · assumption
  · exact List.mem_append_right s (List.mem_singleton.mpr rfl)

lemma ingestAll_run (h : Bytes → Bytes) (idx L : Nat) (hv P : Bytes)
    (hP : P.length = L) (hh : h P = hv) :
    ∀ (rs : List (Nat × Nat)) (done : List Nat) (m : PieceManager) (p : Piece),
      List.lookup idx m.pieces = some p →
      InvP idx L hv P done p →
      rs ≠ [] →
      (∀ pr ∈ basePairs idx L, pr.1 ∈ done ∨ pr ∈ rs) →
      (∀ pr ∈ rs, pr ∈ basePairs idx L ∧ pr.1 ∉ done) →
      (rs.map Prod.fst).Nodup →
      (ingestAll h P m idx rs).2 = [(idx, P)] ∧
      ∃ p', List.lookup idx (ingestAll h P m idx rs).1.pieces = some p' ∧
        p'.verified = true ∧ p'.completed = true ∧
        idx ∈ (ingestAll h P m idx rs).1.completed_pieces := by
  intro rs
  induction rs with
  | nil =>
    intro done m p _ _ hne _ _ _
    exact absurd rfl hne
  | cons pr rest ih =>
    rcases pr with ⟨o, l⟩
    intro done m p hlook hinv hne hcover hfresh hnd
    have hfr := hfresh (o, l) (List.mem_cons_self _ _)
    have hstep := add_block_data_step h idx L hv P done p o l hP hinv hfr.1 hfr.2
    have hpc : p.completed = false := hinv.2.2.2.1
    simp only [ingestAll]
    by_cases hrest : rest = []
    · subst hrest
      have hall : ∀ pr2 ∈ basePairs idx L, pr2.1 ∈ o :: done := by
        intro pr2 hpr2
        rcases hcover pr2 hpr2 with hd | hd
        · exact List.mem_cons_of_mem o hd
        · rcases List.mem_cons.mp hd with hd | hd
          · rw [hd]
            exact List.mem_cons_self _ _
          · exact absurd hd (List.not_mem_nil _)
      obtain ⟨hs1, _, hfin⟩ := hstep
      obtain ⟨hdata, hcompl, _, hverif⟩ := hfin hall
      have hverT : (p.add_block_data h o ((P.drop o).take l)).2.verified = true := by
        rw [hverif, hh]
        simp
      simp only [add_piece_data, hlook]
      rw [if_neg (by simp [hpc])]
      have hcondT : ((p.add_block_data h o ((P.drop o).take l)).1 &&
          (p.add_block_data h o ((P.drop o).take l)).2.completed) = true := by
        rw [hs1, hcompl]
        rfl
      rw [hcondT, if_pos rfl, if_pos hverT]
      simp only [ingestAll]
      constructor
      · rw [hdata]
        rfl
      · refine ⟨(p.add_block_data h o ((P.drop o).take l)).2, ?_, hverT, hcompl, ?_⟩
        · show List.lookup idx (updatePiece m idx _).pieces = _
          unfold updatePiece
          exact lookup_map_update_self m.pieces idx _ (by rw [hlook]; rfl)
        · exact mem_setAdd_self m.completed_pieces idx
    · have hnall : ¬ ∀ pr2 ∈ basePairs idx L, pr2.1 ∈ o :: done := by
        intro hall
        obtain ⟨pr2, hpr2⟩ := List.exists_mem_of_ne_nil rest hrest
        have h1 := hfresh pr2 (List.mem_cons_of_mem _ hpr2)
        have h2 := hall pr2 h1.1
        rcases List.mem_cons.mp h2 with h3 | h3
        · have hmm : pr2.1 ∈ rest.map Prod.fst := List.mem_map_of_mem Prod.fst hpr2
          rw [h3] at hmm
          simp only [List.map_cons, List.nodup_cons] at hnd
          exact hnd.1 hmm
        · exact h1.2 h3
      obtain ⟨hs1, hmid, _⟩ := hstep
      have hinv2 := hmid hnall
      have hc2 : (p.add_block_data h o ((P.drop o).take l)).2.completed = false :=
        hinv2.2.2.2.1
      simp only [add_piece_data, hlook]
      rw [if_neg (by simp [hpc])]
      have hcondF : ((p.add_block_data h o ((P.drop o).take l)).1 &&
          (p.add_block_data h o ((P.drop o).take l)).2.completed) = false := by
        rw [hs1, hc2]
        rfl
      rw [hcondF, if_neg (by decide)]
      dsimp only
      have hlook2 : List.lookup idx
          (updatePiece m idx (p.add_block_data h o ((P.drop o).take l)).2).pieces =
          some (p.add_block_data h o ((P.drop o).take l)).2 := by
        unfold updatePiece
        exact lookup_map_update_self m.pieces idx _ (by rw [hlook]; rfl)
      have hcover2 : ∀ pr2 ∈ basePairs idx L, pr2.1 ∈ o :: done ∨ pr2 ∈ rest := by
        intro pr2 hpr2
        rcases hcover pr2 hpr2 with hd | hd
        · exact Or.inl (List.mem_cons_of_mem o hd)
        · rcases List.mem_cons.mp hd with hd | hd
          · rw [hd]
            exact Or.inl (List.mem_cons_self _ _)
          · exact Or.inr hd
      have hfresh2 : ∀ pr2 ∈ rest, pr2 ∈ basePairs idx L ∧ pr2.1 ∉ o :: done := by
        intro pr2 hpr2
        have h1 := hfresh pr2 (List.mem_cons_of_mem _ hpr2)
        refine ⟨h1.1, ?_⟩
        intro hmem2
        rcases List.mem_cons.mp hmem2 with h3 | h3
        · have hmm : pr2.1 ∈ rest.map Prod.fst := List.mem_map_of_mem Prod.fst hpr2
          rw [h3] at hmm
          simp only [List.map_cons, List.nodup_cons] at hnd
          exact hnd.1 hmm
        · exact h1.2 h3
      have hnd2 : (rest.map Prod.fst).Nodup := by
        simp only [List.map_cons, List.nodup_cons] at hnd
        exact hnd.2
      have hrec := ih (o :: done)
        (updatePiece m idx (p.add_block_data h o ((P.drop o).take l)).2)
        ((p.add_block_data h o ((P.drop o).take l)).2)
        hlook2 hinv2 hrest hcover2 hfresh2 hnd2
      refine ⟨?_, hrec.2⟩
      rw [List.nil_append]
      exact hrec.1

/-- C1: starting from a freshly initialised piece, ingesting the complete,
correct block set (each slot's slice of the intended content `P`, whose
digest is the expected `hash_value`) in any order drives the piece to
Verified, adds its index to the completed set, and fires the
`on_piece_completed` callback exactly once, with the piece index and the
piece bytes `P`. -/
theorem piece_completion_callback_once (h : Bytes → Bytes) (m : PieceManager)
    (idx L : Nat) (hv P : Bytes) (order : List (Nat × Nat))
    (hP : P.length = L) (hL : 0 < L) (hh : h P = hv)
    (hlook : List.lookup idx m.pieces = some (Piece.init idx L hv))
    (hperm : order.Perm (basePairs idx L)) :
    (ingestAll h P m idx order).2 = [(idx, P)] ∧
    ∃ p', List.lookup idx (ingestAll h P m idx order).1.pieces = some p' ∧
      p'.verified = true ∧ p'.completed = true ∧
      idx ∈ (ingestAll h P m idx order).1.completed_pieces := by
  have hinv0 : InvP idx L hv P [] (Piece.init idx L hv) := by
    refine ⟨rfl, rfl, rfl, rfl, rfl, ?_, ?_, ?_⟩
    · exact (overlayBlocks_nil_done (createBlocks idx L) P).symm
    · exact List.length_replicate L 0
    · intro j hj
      have hnc : ¬ coveredBy (createBlocks idx L) [] j := by
        rintro ⟨b, hb, hbdone, _⟩
        exact absurd hbdone (List.not_mem_nil _)
      rw [if_neg hnc]
      show (List.replicate L 0).getD j 0 = 0
      simp only [List.getD_eq_getElem?_getD, List.getElem?_replicate]
      split <;> rfl
  have hne : order ≠ [] := by
    intro h0
    have hlen := hperm.length_eq
    rw [h0] at hlen
    simp only [basePairs, List.length_nil, List.length_map] at hlen
    exact createBlocks_ne_nil idx L hL (List.eq_nil_of_length_eq_zero hlen.symm)
  exact ingestAll_run h idx L hv P hP hh order [] m (Piece.init idx L hv) hlook hinv0 hne
    (fun pr hpr => Or.inr (hperm.mem_iff.mpr hpr))
    (fun pr hpr => ⟨hperm.mem_iff.mp hpr, List.not_mem_nil pr.1⟩)
    ((hperm.map Prod.fst).nodup_iff.mpr (by
      have hp := createBlocks_pairwise idx L
      simp only [basePairs, List.map_map]
      exact List.Pairwise.map _ (fun a b hab => Nat.ne_of_lt hab) hp))

theorem piece_completion_callback_once_witness :
    ([7] : Bytes).length = 1 ∧ 0 < 1 ∧ c9Hash [7] = [9] ∧
    List.lookup 0 c9Store0.pieces = some (Piece.init 0 1 [9]) ∧
    List.Perm [(0, 1)] (basePairs 0 1) ∧
    ((ingestAll c9Hash [7] c9Store0 0 [(0, 1)]).2 = [(0, [7])] ∧
      ∃ p', List.lookup 0 (ingestAll c9Hash [7] c9Store0 0 [(0, 1)]).1.pieces = some p' ∧
        p'.verified = true ∧ p'.completed = true ∧
        0 ∈ (ingestAll c9Hash [7] c9Store0 0 [(0, 1)]).1.completed_pieces) := by
  refine ⟨rfl, by decide, by decide, by decide, by decide, ?_⟩
  exact piece_completion_callback_once c9Hash c9Store0 0 1 [9] [7] [(0, 1)] rfl (by decide)
    (by decide) (by decide) (by decide)

end BT
